import Mathlib

/-!
Verification of the `substreams-ethereum` ABI code generator.

This file gives a shallow embedding of the contract-model assembly performed
by `abigen/src/contract.rs` and `abigen/src/build.rs`, together with the
ABI-level machinery those bindings rely on (canonical signatures, the
Keccak-256 hash, function selectors, event topics, the event log matcher and
the ABI value codec), and proves the stated properties about them.

Byte sequences are modelled as `List Nat` with every element below 256, and
machine words as `Nat` with explicit reduction modulo `2 ^ 64` or `2 ^ 256`
where the code overflows.
-/

set_option maxRecDepth 10000

/-- Ethereum ABI type grammar: `ethabi::ParamType`, the `AbiType` of the data
model.  Recursive through arrays and tuples. -/
inductive ParamType where
  | address
  | bool
  | bytes
  | string
  | uint (n : Nat)
  | int (n : Nat)
  | fixedBytes (n : Nat)
  | array (t : ParamType)
  | fixedArray (t : ParamType) (n : Nat)
  | tuple (ts : List ParamType)

/-- `ethabi::EventParam`: one declared event parameter. -/
structure EventParam where
  name : String
  kind : ParamType
  indexed : Bool

/-- `ethabi::Param`: one declared function parameter. -/
structure Param where
  name : String
  kind : ParamType

/-- `ethabi::Event`: a declared event. -/
structure RsEvent where
  name : String
  inputs : List EventParam
  anonymous : Bool

/-- `ethabi::Function`: a declared function (the fields the generator uses). -/
structure RsFunction where
  name : String
  inputs : List Param
  outputs : List Param

/-- `ethabi::Contract`: its `functions` and `events` fields are
`BTreeMap<String, Vec<_>>` keyed by base name.  We model each map as the
association list obtained by iterating it in key order — one entry per
declared base name, holding that name's overloads in declaration order,
which is exactly what `c.functions.values()` / `c.events.values()` walk in
`Contract::from`. -/
structure EthabiContract where
  functions : List (String × List RsFunction)
  events : List (String × List RsEvent)

/-- `build.rs` `EventExtension`: extra derives, imports and attributes applied
to generated event types. -/
structure EventExtension where
  extended_event_derive : List String
  extended_event_import : List String
  extended_event_attribute : List String

/-- `build.rs` `AbiExtension`: wraps the event-level extension. -/
structure AbiExtension where
  event_extension : EventExtension

/-- Modelled from the spec: the abigen-side event wrapper built by
`(&name, event).into()` in `Contract::from` (its `Event` struct lives in
`event.rs`, which is not under `src/`).  It carries the final
(post-disambiguation) name used for sorting and emission, the underlying ABI
event, and the optional per-event extension attached by
`Contract::add_extension`. -/
structure AbigenEvent where
  name : String
  event : RsEvent
  extension : Option EventExtension

/-- Modelled from the spec: the abigen-side function wrapper built by
`(&name, function).into()` in `Contract::from` (its `Function` struct lives
in `function.rs`, which is not under `src/`).  It carries the final
(post-disambiguation) name and the underlying ABI function. -/
structure AbigenFunction where
  name : String
  function : RsFunction

/-- `contract.rs` `Contract`: the assembled contract model. -/
structure Contract where
  contract_name : Option String
  functions : List AbigenFunction
  events : List AbigenEvent
  extension : Option AbiExtension

/-- The per-group renaming closure inside `Contract::from` (contract.rs lines
26-40) for events: `group` is one base name's overloads in declaration
order; with `count <= 1` each member keeps its own name, otherwise the
member at declaration index `index` is renamed `event.name ++ (index + 1)`. -/
def eventGroupDisambiguate (group : List RsEvent) : List AbigenEvent :=
  let count := group.length
  group.enum.map fun p =>
    if count ≤ 1 then { name := p.2.name, event := p.2, extension := none }
    else { name := p.2.name ++ toString (p.1 + 1), event := p.2, extension := none }

/-- The per-group renaming closure inside `Contract::from` (contract.rs lines
45-59) for functions, identical in shape to the event one. -/
def functionGroupDisambiguate (group : List RsFunction) : List AbigenFunction :=
  let count := group.length
  group.enum.map fun p =>
    if count ≤ 1 then { name := p.2.name, function := p.2 }
    else { name := p.2.name ++ toString (p.1 + 1), function := p.2 }

/-- The comparison used by the two `sort_by` calls in `Contract::from`:
`left.name.cmp(&right.name)` as a boolean "less or equal".  Rust compares
the UTF-8 bytes of the strings; on `String` this agrees with the
code-point lexicographic order used here. -/
def nameLeE (l r : AbigenEvent) : Bool := decide (l.name ≤ r.name)

/-- Function counterpart of `nameLeE`. -/
def nameLeF (l r : AbigenFunction) : Bool := decide (l.name ≤ r.name)

/-- `impl From<&ethabi::Contract> for Contract` (contract.rs lines 24-72):
each base-name group is disambiguated in declaration order, the groups are
concatenated in map-key order, and both collections are stably sorted by
final name (`sort_by` on `name` — `List.mergeSort` is stable, as is the
Rust sort). -/
def Contract.ofEthabi (c : EthabiContract) : Contract :=
  let events := ((c.events.map fun g => eventGroupDisambiguate g.2).flatten).mergeSort nameLeE
  let functions :=
    ((c.functions.map fun g => functionGroupDisambiguate g.2).flatten).mergeSort nameLeF
  { contract_name := none
    functions := functions
    events := events
    extension := none }

/-- `Contract::add_contract_name` (contract.rs lines 75-78). -/
def Contract.add_contract_name (c : Contract) (name : String) : Contract :=
  { c with contract_name := some name }

/-- Modelled from the spec: `Event::add_extension` (event.rs, not under
`src/`) stores the given event-level extension on the event so that the
extra derives, imports and attributes are applied to its generated type. -/
def AbigenEvent.add_extension (e : AbigenEvent) (x : EventExtension) : AbigenEvent :=
  { e with extension := some x }

/-- `Contract::add_extension` (contract.rs lines 80-90): with `Some`, record
the extension and distribute its event-level portion onto every event; with
`None`, return `self` untouched. -/
def Contract.add_extension (c : Contract) (extension : Option AbiExtension) : Contract :=
  match extension with
  | some ext =>
    { c with
      extension := some ext
      events := c.events.map fun e => e.add_extension ext.event_extension }
  | none => c

/-- The semantically relevant content of the `TokenStream` built by
`Contract::generate` (contract.rs lines 92-178).  `contractNameConst` is the
emitted `CONTRACT_NAME` constant; `functionDecls` and `eventDecls` stand for
the per-function / per-event declarations emitted by mapping
`Function::generate` and `Event::generate_event` over the collections (both
pure per-item renderings); `eventsEnumVariants` is the variant order of the
generated `Events` enum and `matcherTryOrder` the order in which
`Events::match_and_decode` tries the per-event matchers; `extraDerive` is
the optional extra `#[derive(..)]` list. -/
structure GeneratedCode where
  contractNameConst : String
  functionDecls : List AbigenFunction
  eventDecls : List AbigenEvent
  eventsEnumVariants : List String
  matcherTryOrder : List String
  extraDerive : Option (List String)

/-- `Contract::generate` (contract.rs lines 92-178), at the granularity of
`GeneratedCode`: every emitted sequence follows the stored collection order,
the extra derive list is emitted only when the extension is present and the
list is non-empty, and `CONTRACT_NAME` is `contract_name.unwrap_or("")`. -/
def Contract.generate (c : Contract) : GeneratedCode :=
  { contractNameConst := c.contract_name.getD ""
    functionDecls := c.functions
    eventDecls := c.events
    eventsEnumVariants := c.events.map AbigenEvent.name
    matcherTryOrder := c.events.map AbigenEvent.name
    extraDerive :=
      match c.extension with
      | some ext =>
        let list := ext.event_extension.extended_event_derive
        if list.length > 0 then some list else none
      | none => none }

/-- A function with the given name and no parameters, used as a concrete
instantiation input. -/
def exFunction (nm : String) : RsFunction := { name := nm, inputs := [], outputs := [] }

/-- An event with the given name and no parameters, used as a concrete
instantiation input. -/
def exEvent (nm : String) : RsEvent := { name := nm, inputs := [], anonymous := false }

/-- A small concrete ABI contract: two overloads of `foo` and one event. -/
def exAbi : EthabiContract :=
  { functions := [("foo", [exFunction "foo", exFunction "foo"])]
    events := [("Transfer", [exEvent "Transfer"])] }

/-- Left-rotation of a 64-bit lane, with explicit reduction modulo `2 ^ 64`. -/
def rotl64 (x n : Nat) : Nat := ((x <<< n) % 2 ^ 64) ||| (x >>> (64 - n))

/-- One step of the degree-8 LFSR (polynomial x^8 + x^6 + x^5 + x^4 + 1) that
generates the Keccak round-constant bits. -/
def rcStep (r : Nat) : Nat := ((r <<< 1) ^^^ ((r >>> 7) * 0x71)) % 256

/-- The LFSR register after `t` steps from 1. -/
def rcReg : Nat → Nat
  | 0 => 1
  | t + 1 => rcStep (rcReg t)

/-- The 24 Keccak-f round constants: constant `i` has LFSR bit `7 * i + j` at
lane position `2 ^ j - 1` for `j` in 0..6. -/
def keccakRC : List Nat :=
  (List.range 24).map fun i =>
    (List.range 7).foldl (fun acc j => acc ||| ((rcReg (j + 7 * i) &&& 1) <<< (2 ^ j - 1))) 0

/-- Keccak rotation offsets, indexed by `x + 5 * y`: walking the lanes in pi
order from (1, 0), step `t` rotates by the triangular number
`(t + 1) * (t + 2) / 2` modulo 64. -/
def keccakRot : List Nat :=
  ((List.range 24).foldl
    (fun st t =>
      let x := st.1.1
      let y := st.1.2
      ((y, (2 * x + 3 * y) % 5), st.2.set (x + 5 * y) ((t + 1) * (t + 2) / 2 % 64)))
    ((1, 0), List.replicate 25 0)).2

/-- Lane `A[x, y]` of a 25-lane state stored at index `x + 5 * y`. -/
def lane (s : List Nat) (x y : Nat) : Nat := s.getD (x + 5 * y) 0

/-- The theta step of Keccak-f. -/
def keccakTheta (s : List Nat) : List Nat :=
  let c := fun x => lane s x 0 ^^^ lane s x 1 ^^^ lane s x 2 ^^^ lane s x 3 ^^^ lane s x 4
  let d := fun x => c ((x + 4) % 5) ^^^ rotl64 (c ((x + 1) % 5)) 1
  (List.range 25).map fun i => s.getD i 0 ^^^ d (i % 5)

/-- The combined rho and pi steps of Keccak-f. -/
def keccakRhoPi (s : List Nat) : List Nat :=
  (List.range 25).map fun i =>
    let xo := i % 5
    let yo := i / 5
    let x := (xo + 3 * yo) % 5
    let y := xo
    rotl64 (lane s x y) (keccakRot.getD (x + 5 * y) 0)

/-- The chi step of Keccak-f. -/
def keccakChi (s : List Nat) : List Nat :=
  (List.range 25).map fun i =>
    let x := i % 5
    let y := i / 5
    lane s x y ^^^ ((2 ^ 64 - 1) ^^^ lane s ((x + 1) % 5) y) &&& lane s ((x + 2) % 5) y

/-- One Keccak-f round. -/
def keccakRound (s : List Nat) (rc : Nat) : List Nat :=
  let s := keccakChi (keccakRhoPi (keccakTheta s))
  (List.range 25).map fun i => if i = 0 then s.getD 0 0 ^^^ rc else s.getD i 0

/-- The full Keccak-f[1600] permutation (24 rounds). -/
def keccakF (s : List Nat) : List Nat := keccakRC.foldl keccakRound s

/-- Keccak padding for rate 136, using the original 0x01 domain byte used by
Ethereum (not the SHA-3 0x06 one): append 0x01, zeros, and set the top bit
of the last byte of the block. -/
def keccakPad (msg : List Nat) : List Nat :=
  let padLen := 136 - msg.length % 136
  if padLen = 1 then msg ++ [0x81]
  else msg ++ [0x01] ++ List.replicate (padLen - 2) 0 ++ [0x80]

/-- A 64-bit lane from eight little-endian bytes. -/
def leLane (bs : List Nat) : Nat := bs.foldr (fun b acc => acc * 256 + b) 0

/-- Absorb one 136-byte block into the state. -/
def absorbBlock (s block : List Nat) : List Nat :=
  let lanes := (List.range 17).map fun i => leLane ((block.drop (8 * i)).take 8)
  keccakF ((List.range 25).map fun i =>
    if i < 17 then s.getD i 0 ^^^ lanes.getD i 0 else s.getD i 0)

/-- The eight little-endian bytes of a 64-bit lane. -/
def laneBytes (v : Nat) : List Nat := (List.range 8).map fun i => (v >>> (8 * i)) % 256

/-- Keccak-256 of a byte sequence: absorb every padded 136-byte block, then
squeeze the first 32 bytes of the state.  Checked below against the
documented vector for `transfer(address,uint256)` and the well-known topic
of `Transfer(address,address,uint256)`. -/
def keccak256 (msg : List Nat) : List Nat :=
  let padded := keccakPad msg
  let final := (List.range (padded.length / 136)).foldl
    (fun s i => absorbBlock s ((padded.drop (136 * i)).take 136)) (List.replicate 25 0)
  ((List.range 4).map fun i => laneBytes (final.getD i 0)).flatten

/-- UTF-8 bytes of an ASCII string; every character of an ABI canonical
signature is ASCII, where code points and UTF-8 bytes coincide. -/
def strBytes (s : String) : List Nat := s.data.map Char.toNat

mutual

/-- Modelled from the spec: the canonical textual form of an `AbiType`
(spec section 4.2) — tuples render as parenthesized component lists, arrays
append their bracket suffix.  The Rust side lives in `ethabi` and the
signature builders of `event.rs` / `function.rs`, none of which are under
`src/`. -/
def ParamType.typeName : ParamType → String
  | .address => "address"
  | .bool => "bool"
  | .bytes => "bytes"
  | .string => "string"
  | .uint n => "uint" ++ toString n
  | .int n => "int" ++ toString n
  | .fixedBytes n => "bytes" ++ toString n
  | .array t => t.typeName ++ "[]"
  | .fixedArray t n => t.typeName ++ "[" ++ toString n ++ "]"
  | .tuple ts => "(" ++ typeNameList ts ++ ")"

/-- Comma-separated canonical names of a type list. -/
def typeNameList : List ParamType → String
  | [] => ""
  | [t] => t.typeName
  | t :: ts => t.typeName ++ "," ++ typeNameList ts

end

/-- Modelled from the spec: the canonical signature `name(t1,t2,...)` of a
function (spec section 4.2). -/
def RsFunction.signature (f : RsFunction) : String :=
  f.name ++ "(" ++ typeNameList (f.inputs.map Param.kind) ++ ")"

/-- Modelled from the spec: the canonical signature `name(t1,t2,...)` of an
event, over all declared inputs (indexed and not) in declaration order. -/
def RsEvent.signature (e : RsEvent) : String :=
  e.name ++ "(" ++ typeNameList (e.inputs.map EventParam.kind) ++ ")"

/-- Modelled from the spec: a function selector is the first 4 bytes of the
Keccak-256 hash of the UTF-8 bytes of its canonical signature. -/
def RsFunction.selector (f : RsFunction) : List Nat :=
  (keccak256 (strBytes f.signature)).take 4

/-- Modelled from the spec: an event topic0 is the full 32-byte Keccak-256
hash of the UTF-8 bytes of its canonical signature. -/
def RsEvent.topic0 (e : RsEvent) : List Nat := keccak256 (strBytes e.signature)

/-- The ERC-20 `transfer(address,uint256)` function. -/
def transferFn : RsFunction :=
  { name := "transfer"
    inputs := [{ name := "to", kind := .address }, { name := "value", kind := .uint 256 }]
    outputs := [{ name := "", kind := .bool }] }

mutual

/-- Modelled from the spec: whether an ABI type has a dynamic encoding —
dynamic bytes, strings, dynamic arrays, and compounds containing dynamic
data (standard ABI, spec section 4.6 step 3). -/
def ParamType.isDynamic : ParamType → Bool
  | .bytes => true
  | .string => true
  | .array _ => true
  | .fixedArray t _ => t.isDynamic
  | .tuple ts => anyDynamic ts
  | _ => false

/-- Whether any type of the list is dynamic. -/
def anyDynamic : List ParamType → Bool
  | [] => false
  | t :: ts => t.isDynamic || anyDynamic ts

end

mutual

/-- Modelled from the spec: the in-place encoded size of a static ABI type
(meaningful only for static types; 32 for every word-sized head). -/
def ParamType.staticSize : ParamType → Nat
  | .fixedArray t n => n * t.staticSize
  | .tuple ts => staticSizeList ts
  | _ => 32

/-- Sum of the static sizes of a type list. -/
def staticSizeList : List ParamType → Nat
  | [] => 0
  | t :: ts => t.staticSize + staticSizeList ts

end

/-- Head size of a component in a tuple-style encoding: 32 (an offset word)
when dynamic, the full in-place size when static. -/
def ParamType.headSize (t : ParamType) : Nat := if t.isDynamic then 32 else t.staticSize

/-- Total head size of a component list. -/
def headsSize : List ParamType → Nat
  | [] => 0
  | t :: ts => t.headSize + headsSize ts

mutual

/-- Structural nesting depth of an ABI type, used as decoding fuel: decoding
a value of type `t` recurses into component types at most `t.depth` levels. -/
def ParamType.depth : ParamType → Nat
  | .array t => t.depth + 1
  | .fixedArray t _ => t.depth + 1
  | .tuple ts => depthList ts + 1
  | _ => 1

/-- Maximum depth over a type list. -/
def depthList : List ParamType → Nat
  | [] => 0
  | t :: ts => max t.depth (depthList ts)

end

mutual

/-- Modelled from the spec: validity of a declared ABI type — integer widths
in {8, 16, ..., 256}, fixed-bytes widths in 1..32 (spec section 3). -/
def ParamType.wf : ParamType → Bool
  | .uint n => decide (0 < n) && decide (n ≤ 256) && (n % 8 == 0)
  | .int n => decide (0 < n) && decide (n ≤ 256) && (n % 8 == 0)
  | .fixedBytes n => decide (0 < n) && decide (n ≤ 32)
  | .array t => t.wf
  | .fixedArray t _ => t.wf
  | .tuple ts => allWf ts
  | _ => true

/-- Validity of every type of a list. -/
def allWf : List ParamType → Bool
  | [] => true
  | t :: ts => t.wf && allWf ts

end

/-- Modelled from the spec: a runtime ABI value (the token carried by the
encode/decode contracts of sections 4.5 and 4.6).  Addresses, fixed bytes,
dynamic bytes and strings are byte sequences; integers carry their numeric
value. -/
inductive Value where
  | vBool (b : Bool)
  | vAddress (bs : List Nat)
  | vUint (v : Nat)
  | vInt (v : Int)
  | vFixedBytes (bs : List Nat)
  | vBytes (bs : List Nat)
  | vString (bs : List Nat)
  | vArray (vs : List Value)
  | vFixedArray (vs : List Value)
  | vTuple (vs : List Value)

mutual

/-- Modelled from the spec: a value satisfies a declared ABI type — correct
variant, byte values below 256, declared byte widths and array lengths, and
integers within the declared bit width.  Dynamic sequences longer than
`2 ^ 256 - 1` have no ABI representation (their length occupies one 256-bit
word), so they do not satisfy the type. -/
def Value.hasType : Value → ParamType → Bool
  | .vBool _, .bool => true
  | .vAddress bs, .address => bs.length == 20 && bs.all (· < 256)
  | .vUint v, .uint n => decide (v < 2 ^ n)
  | .vInt v, .int n => decide (-(2 : Int) ^ (n - 1) ≤ v) && decide (v < 2 ^ (n - 1))
  | .vFixedBytes bs, .fixedBytes n => bs.length == n && bs.all (· < 256)
  | .vBytes bs, .bytes => bs.all (· < 256) && decide (bs.length < 2 ^ 256)
  | .vString bs, .string => bs.all (· < 256) && decide (bs.length < 2 ^ 256)
  | .vArray vs, .array t => allHaveType vs t && decide (vs.length < 2 ^ 256)
  | .vFixedArray vs, .fixedArray t n => vs.length == n && allHaveType vs t
  | .vTuple vs, .tuple ts => haveTypes vs ts
  | _, _ => false

/-- Every value of the list satisfies one element type. -/
def allHaveType : List Value → ParamType → Bool
  | [], _ => true
  | v :: vs, t => v.hasType t && allHaveType vs t

/-- The values satisfy the component types pointwise. -/
def haveTypes : List Value → List ParamType → Bool
  | [], [] => true
  | v :: vs, t :: ts => v.hasType t && haveTypes vs ts
  | _, _ => false

end

/-- The `n` big-endian bytes of `v % 256 ^ n`. -/
def beBytes : Nat → Nat → List Nat
  | 0, _ => []
  | k + 1, v => beBytes k (v / 256) ++ [v % 256]

/-- Numeric value of a big-endian byte sequence. -/
def beVal (bs : List Nat) : Nat := bs.foldl (fun a b => a * 256 + b) 0

/-- One 32-byte big-endian word, reducing `v` modulo `2 ^ 256`. -/
def beWord (v : Nat) : List Nat := beBytes 32 v

/-- Zero-pad a byte sequence on the right to a multiple of 32 bytes. -/
def padRight32 (bs : List Nat) : List Nat :=
  bs ++ List.replicate ((32 - bs.length % 32) % 32) 0

mutual

/-- Modelled from the spec: standard ABI encoding of a well-typed value
(`ABI_encode` of section 4.5; the Rust side lives in `ethabi`, outside this
repository).  Word types occupy one big-endian 32-byte word; dynamic bytes
and strings carry a length word and right-padded content; arrays and tuples
use head/tail encoding with offsets relative to the start of the enclosing
tuple encoding, dynamic arrays preceded by their length word. -/
def encodeValue : Value → ParamType → List Nat
  | .vBool b, _ => beWord (if b then 1 else 0)
  | .vAddress bs, _ => List.replicate 12 0 ++ bs
  | .vUint v, _ => beWord v
  | .vInt v, _ => beWord ((v % (2 : Int) ^ 256).toNat)
  | .vFixedBytes bs, _ => bs ++ List.replicate (32 - bs.length) 0
  | .vBytes bs, _ => beWord bs.length ++ padRight32 bs
  | .vString bs, _ => beWord bs.length ++ padRight32 bs
  | .vArray vs, t =>
    match t with
    | .array elemT =>
      beWord vs.length
        ++ (encodeHeads vs (List.replicate vs.length elemT)
              (headsSize (List.replicate vs.length elemT))
            ++ encodeTails vs (List.replicate vs.length elemT))
    | _ => []
  | .vFixedArray vs, t =>
    match t with
    | .fixedArray elemT _ =>
      encodeHeads vs (List.replicate vs.length elemT)
          (headsSize (List.replicate vs.length elemT))
        ++ encodeTails vs (List.replicate vs.length elemT)
    | _ => []
  | .vTuple vs, t =>
    match t with
    | .tuple ts => encodeHeads vs ts (headsSize ts) ++ encodeTails vs ts
    | _ => []

/-- The heads of a tuple-style encoding: static components in place, dynamic
components as the offset (`tailPos`) their tail will occupy, relative to the
start of the enclosing tuple encoding. -/
def encodeHeads : List Value → List ParamType → Nat → List Nat
  | v :: vs, t :: ts, tailPos =>
    if t.isDynamic then
      beWord tailPos ++ encodeHeads vs ts (tailPos + (encodeValue v t).length)
    else
      encodeValue v t ++ encodeHeads vs ts tailPos
  | _, _, _ => []

/-- The tails of a tuple-style encoding: the concatenated encodings of the
dynamic components. -/
def encodeTails : List Value → List ParamType → List Nat
  | v :: vs, t :: ts =>
    (if t.isDynamic then encodeValue v t else []) ++ encodeTails vs ts
  | _, _ => []

end

/-- The full tuple-style encoding of a component list: heads then tails. -/
def encodeTop (vs : List Value) (ts : List ParamType) : List Nat :=
  encodeHeads vs ts (headsSize ts) ++ encodeTails vs ts

/-- Read `n` bytes at `pos`, failing when the buffer is too short. -/
def sliceBytes (bs : List Nat) (pos n : Nat) : Option (List Nat) :=
  if pos + n ≤ bs.length then some ((bs.drop pos).take n) else none

/-- Read one 32-byte big-endian word at `pos`. -/
def readWord (bs : List Nat) (pos : Nat) : Option Nat :=
  (sliceBytes bs pos 32).map beVal

/-- Walk the components of a tuple-style encoding with the given per-value
decoder: `base` is the position the stored offsets are relative to (the
start of the enclosing tuple encoding) and `headPos` the position of the
next head. -/
def decodeCompsWith (dec : ParamType → List Nat → Nat → Option Value) :
    List ParamType → List Nat → Nat → Nat → Option (List Value)
  | [], _, _, _ => some []
  | t :: ts, bs, base, headPos =>
    if t.isDynamic then
      (readWord bs headPos).bind fun off =>
        (dec t bs (base + off)).bind fun v =>
          (decodeCompsWith dec ts bs base (headPos + 32)).map fun vs => v :: vs
    else
      (dec t bs headPos).bind fun v =>
        (decodeCompsWith dec ts bs base (headPos + t.staticSize)).map fun vs => v :: vs

/-- Modelled from the spec: standard ABI decoding of one value of type `t`
whose encoding starts at absolute position `pos` (the in-place slot for
static types, the tail position for dynamic ones).  The fuel argument only
bounds recursion into component types, so `t.depth` always suffices.
Structural mismatches and short buffers yield `none` (`DecodeError`). -/
def decodeValue : Nat → ParamType → List Nat → Nat → Option Value
  | 0, _, _, _ => none
  | fuel + 1, t, bs, pos =>
    match t with
    | .bool =>
      (readWord bs pos).bind fun w =>
        if w = 1 then some (.vBool true) else if w = 0 then some (.vBool false) else none
    | .address => (sliceBytes bs pos 32).map fun ws => .vAddress (ws.drop 12)
    | .uint _ => (readWord bs pos).map fun w => .vUint w
    | .int _ =>
      (readWord bs pos).map fun w =>
        .vInt (if w < 2 ^ 255 then (w : Int) else (w : Int) - 2 ^ 256)
    | .fixedBytes n => (sliceBytes bs pos 32).map fun ws => .vFixedBytes (ws.take n)
    | .bytes =>
      (readWord bs pos).bind fun len =>
        (sliceBytes bs (pos + 32) len).map fun content => .vBytes content
    | .string =>
      (readWord bs pos).bind fun len =>
        (sliceBytes bs (pos + 32) len).map fun content => .vString content
    | .array elemT =>
      (readWord bs pos).bind fun n =>
        (decodeCompsWith (decodeValue fuel) (List.replicate n elemT) bs (pos + 32)
            (pos + 32)).map .vArray
    | .fixedArray elemT n =>
      (decodeCompsWith (decodeValue fuel) (List.replicate n elemT) bs pos pos).map .vFixedArray
    | .tuple ts => (decodeCompsWith (decodeValue fuel) ts bs pos pos).map .vTuple

/-- Modelled from the spec: `ABI_encode(inputs as a tuple)` over the declared
input types (section 4.5). -/
def abiEncode (ts : List ParamType) (vs : List Value) : List Nat := encodeTop vs ts

/-- Modelled from the spec: sequential ABI tuple decoding of a byte buffer
against the declared types (sections 4.5 and 4.6 step 4). -/
def abiDecode (ts : List ParamType) (bs : List Nat) : Option (List Value) :=
  decodeCompsWith (decodeValue (depthList ts)) ts bs 0 0

/-- Runtime log record (`substreams_ethereum::pb::eth::v2::Log`, as seen by
the generated matchers): an emitting address, ordered 32-byte topics, and a
data payload. -/
structure Log where
  address : List Nat
  topics : List (List Nat)
  data : List Nat

/-- Number of indexed inputs of an event. -/
def RsEvent.indexedCount (e : RsEvent) : Nat := (e.inputs.filter (·.indexed)).length

/-- Modelled from the spec: decoding of one indexed parameter from its topic
(section 4.6 step 3) — a fixed-size type decodes its raw value from the
32-byte topic, a dynamic type decodes to the 32-byte hash stored in the
topic rather than the original value. -/
def decodeTopic (t : ParamType) (topic : List Nat) : Option Value :=
  if t.isDynamic then some (.vFixedBytes topic) else decodeValue t.depth t topic 0

/-- Decode the indexed parameters from their topics, in declared order. -/
def decodeTopics : List EventParam → List (List Nat) → Option (List Value)
  | [], [] => some []
  | p :: ps, topic :: topics =>
    (decodeTopic p.kind topic).bind fun v => (decodeTopics ps topics).map fun vs => v :: vs
  | _, _ => none

/-- Interleave the decoded indexed values and the decoded data values back
into declared parameter order. -/
def mergeParams : List EventParam → List Value → List Value → Option (List Value)
  | [], ivs, dvs => if ivs.isEmpty && dvs.isEmpty then some [] else none
  | p :: ps, ivs, dvs =>
    if p.indexed then
      match ivs with
      | iv :: ivs2 => (mergeParams ps ivs2 dvs).map fun vs => iv :: vs
      | [] => none
    else
      match dvs with
      | dv :: dvs2 => (mergeParams ps ivs dvs2).map fun vs => dv :: vs
      | [] => none

/-- Modelled from the spec: the per-event log matcher (section 4.6; the Rust
side lives in `event.rs` and the generated code, not under `src/`).
Step 1: a non-anonymous event requires a non-empty topic list starting with
its topic0.  Step 2: `topics.len() - (anonymous ? 0 : 1)` must equal the
indexed-input count, otherwise "no match".  Steps 3-5: decode indexed
parameters from their topics and the non-indexed ones from `data`, in
declared order; any decoding failure is "no match", never an error. -/
def RsEvent.matchAndDecode (e : RsEvent) (log : Log) : Option (List Value) :=
  let skip := if e.anonymous then 0 else 1
  let step1ok :=
    if e.anonymous then true
    else
      match log.topics with
      | [] => false
      | t0 :: _ => t0 == e.topic0
  if !step1ok then none
  else if log.topics.length - skip ≠ e.indexedCount then none
  else
    (decodeTopics (e.inputs.filter (·.indexed)) (log.topics.drop skip)).bind fun ivs =>
      (abiDecode ((e.inputs.filter fun p => !p.indexed).map EventParam.kind) log.data).bind
        fun dvs => mergeParams e.inputs ivs dvs

/-- Semantics of the generated `Events::match_and_decode` (contract.rs lines
108-119 and 167-173): try each per-event matcher in the order of the stored
events collection and return the first success, tagged with the matching
variant name; `None` when no matcher succeeds. -/
def tryEvents : List AbigenEvent → Log → Option (String × List Value)
  | [], _ => none
  | e :: rest, log =>
    match e.event.matchAndDecode log with
    | some vs => some (e.name, vs)
    | none => tryEvents rest log

/-- Contract-level dispatch of a log over the generated event matchers. -/
def Contract.matchAndDecode (c : Contract) (log : Log) : Option (String × List Value) :=
  tryEvents c.events log

/-- The disambiguated events in pre-sort order: declaration order inside each
base-name group, groups in map-key order.  The ABI declaration order across
distinct base names is already lost in the `BTreeMap` of `ethabi::Contract`;
within one group it is exactly the declaration order. -/
def declarationOrderEvents (c : EthabiContract) : List AbigenEvent :=
  (c.events.map fun g => eventGroupDisambiguate g.2).flatten

/-- The ERC-20 `Transfer(address,address,uint256)` event with two indexed
parameters. -/
def exTransferEvent : RsEvent :=
  { name := "Transfer"
    inputs :=
      [{ name := "from", kind := .address, indexed := true },
       { name := "to", kind := .address, indexed := true },
       { name := "value", kind := .uint 256, indexed := false }]
    anonymous := false }

/-- A log whose first topic is the right topic0 but whose topic count does
not fit `exTransferEvent`. -/
def exLog7 : Log := { address := [], topics := [exTransferEvent.topic0], data := [] }

/-- An anonymous event named `foo`, with one indexed address input when
`withIndexed` and no inputs otherwise. -/
def cex3Event (withIndexed : Bool) : RsEvent :=
  { name := "foo"
    inputs := if withIndexed then [{ name := "a", kind := .address, indexed := true }] else []
    anonymous := true }

/-- A contract with a single group of ten overloaded anonymous events named
`foo`; only the first (declaration index 0) has an indexed input. -/
def cex3Abi : EthabiContract :=
  { functions := []
    events := [("foo", cex3Event true :: List.replicate 9 (cex3Event false))] }

/-- A log with no topics and no data: it matches every `cex3Event false`
overload and fails the topic count of `cex3Event true`. -/
def cex3Log : Log := { address := [], topics := [], data := [] }

/-- The disambiguated overloads `foo2` ... `foo9`. -/
def cex3Mid : List AbigenEvent :=
  (List.range 8).map fun i =>
    { name := "foo" ++ toString (i + 2), event := cex3Event false, extension := none }

/-- The ten overloads in sorted final-name order: `foo10` sorts between
`foo1` and `foo2`. -/
def cex3Sorted : List AbigenEvent :=
  { name := "foo1", event := cex3Event true, extension := none } ::
    { name := "foo10", event := cex3Event false, extension := none } :: cex3Mid

/-- C1: grouping functions (or events) by declared base name, a group of size
1 keeps every original name unchanged, and in a group of size greater than 1
the member at declaration index `i` gets its base name suffixed with `i + 1`
(1-based position in declaration order). -/
theorem c1_overload_group_naming (fg : List RsFunction) (eg : List RsEvent) :
    ((fg.length = 1 →
        (functionGroupDisambiguate fg).map AbigenFunction.name = fg.map RsFunction.name) ∧
      (1 < fg.length →
        (functionGroupDisambiguate fg).map AbigenFunction.name
          = fg.enum.map fun p => p.2.name ++ toString (p.1 + 1))) ∧
    ((eg.length = 1 →
        (eventGroupDisambiguate eg).map AbigenEvent.name = eg.map RsEvent.name) ∧
      (1 < eg.length →
        (eventGroupDisambiguate eg).map AbigenEvent.name
          = eg.enum.map fun p => p.2.name ++ toString (p.1 + 1))) := by
  refine ⟨⟨fun h => ?_, fun h => ?_⟩, fun h => ?_, fun h => ?_⟩
  · simp only [functionGroupDisambiguate, h, Nat.le_refl, if_pos, List.map_map]
    have : (AbigenFunction.name ∘ fun p : Nat × RsFunction =>
        ({ name := p.2.name, function := p.2 } : AbigenFunction))
        = (RsFunction.name ∘ Prod.snd) := rfl
    rw [this, ← List.map_map, List.enum_map_snd]
  · simp only [functionGroupDisambiguate, if_neg (Nat.not_le.mpr h), List.map_map]
    rfl
  · simp only [eventGroupDisambiguate, h, Nat.le_refl, if_pos, List.map_map]
    have : (AbigenEvent.name ∘ fun p : Nat × RsEvent =>
        ({ name := p.2.name, event := p.2, extension := none } : AbigenEvent))
        = (RsEvent.name ∘ Prod.snd) := rfl
    rw [this, ← List.map_map, List.enum_map_snd]
  · simp only [eventGroupDisambiguate, if_neg (Nat.not_le.mpr h), List.map_map]
    rfl

/-- Witness for C1 at a concrete input: two overloaded functions named `foo`
become `foo1`, `foo2`; a singleton event group keeps its name. -/
theorem c1_overload_group_naming_witness :
    (functionGroupDisambiguate [exFunction "foo", exFunction "foo"]).map AbigenFunction.name
        = ["foo1", "foo2"] ∧
      (eventGroupDisambiguate [exEvent "Transfer"]).map AbigenEvent.name = ["Transfer"] := by
  have h := c1_overload_group_naming [exFunction "foo", exFunction "foo"] [exEvent "Transfer"]
  exact ⟨(h.1.2 (by decide)).trans (by decide), (h.2.1 (by decide)).trans (by decide)⟩

/-- Transitivity of the name comparison for functions. -/
theorem nameLeF_trans (a b c : AbigenFunction) :
    nameLeF a b = true → nameLeF b c = true → nameLeF a c = true := by
  simp only [nameLeF, decide_eq_true_eq]
  exact le_trans

/-- Totality of the name comparison for functions. -/
theorem nameLeF_total (a b : AbigenFunction) : (nameLeF a b || nameLeF b a) = true := by
  simp only [nameLeF, Bool.or_eq_true, decide_eq_true_eq]
  exact le_total _ _

/-- Transitivity of the name comparison for events. -/
theorem nameLeE_trans (a b c : AbigenEvent) :
    nameLeE a b = true → nameLeE b c = true → nameLeE a c = true := by
  simp only [nameLeE, decide_eq_true_eq]
  exact le_trans

/-- Totality of the name comparison for events. -/
theorem nameLeE_total (a b : AbigenEvent) : (nameLeE a b || nameLeE b a) = true := by
  simp only [nameLeE, Bool.or_eq_true, decide_eq_true_eq]
  exact le_total _ _

/-- C2: the model built by `Contract::from` keeps its function and event
collections sorted ascending by final (post-suffix) name, and those
collections are exactly (a permutation of) the disambiguated groups — so
emission order is determined solely by the final names. -/
theorem c2_collections_sorted_by_final_name (c : EthabiContract) :
    List.Sorted (· ≤ ·) ((Contract.ofEthabi c).functions.map AbigenFunction.name) ∧
      List.Sorted (· ≤ ·) ((Contract.ofEthabi c).events.map AbigenEvent.name) ∧
      (Contract.ofEthabi c).functions.Perm
        ((c.functions.map fun g => functionGroupDisambiguate g.2).flatten) ∧
      (Contract.ofEthabi c).events.Perm
        ((c.events.map fun g => eventGroupDisambiguate g.2).flatten) := by
  refine ⟨?_, ?_, List.mergeSort_perm _ _, List.mergeSort_perm _ _⟩
  · have h := List.sorted_mergeSort nameLeF_trans nameLeF_total
      ((c.functions.map fun g => functionGroupDisambiguate g.2).flatten)
    rw [List.Sorted, List.pairwise_map]
    exact h.imp fun hab => by
      simpa [nameLeF, decide_eq_true_eq] using hab
  · have h := List.sorted_mergeSort nameLeE_trans nameLeE_total
      ((c.events.map fun g => eventGroupDisambiguate g.2).flatten)
    rw [List.Sorted, List.pairwise_map]
    exact h.imp fun hab => by
      simpa [nameLeE, decide_eq_true_eq] using hab

/-- C4: applying a present extension records it on the model and attaches its
event-level portion to every event, leaving functions and the contract name
untouched. -/
theorem c4_extension_attached_to_every_event (c : Contract) (ext : AbiExtension) :
    (c.add_extension (some ext)).events
        = c.events.map (fun e => { e with extension := some ext.event_extension }) ∧
      (c.add_extension (some ext)).extension = some ext ∧
      (c.add_extension (some ext)).functions = c.functions ∧
      (c.add_extension (some ext)).contract_name = c.contract_name :=
  ⟨rfl, rfl, rfl, rfl⟩

/-- C5: model generation is deterministic — two runs of the assembly and
generation pipeline on equal `(ABI, extension)` inputs produce equal output. -/
theorem c5_generate_deterministic (a₁ a₂ : EthabiContract) (e₁ e₂ : Option AbiExtension)
    (ha : a₁ = a₂) (he : e₁ = e₂) :
    Contract.generate ((Contract.ofEthabi a₁).add_extension e₁)
      = Contract.generate ((Contract.ofEthabi a₂).add_extension e₂) := by
  subst ha he
  rfl

/-- Witness for C5 at a concrete input. -/
theorem c5_generate_deterministic_witness :
    exAbi = exAbi ∧
      Contract.generate ((Contract.ofEthabi exAbi).add_extension none)
        = Contract.generate ((Contract.ofEthabi exAbi).add_extension none) :=
  ⟨rfl, c5_generate_deterministic exAbi exAbi none none rfl rfl⟩

/-- C9: `Contract::add_extension` with `None` is a no-op on the whole model. -/
theorem c9_add_extension_none_noop (c : Contract) : c.add_extension none = c := rfl

/-- C10: with no contract name attached, `generate` still emits the
`CONTRACT_NAME` constant, as the empty string. -/
theorem c10_missing_contract_name_emits_empty (c : Contract) (h : c.contract_name = none) :
    (Contract.generate c).contractNameConst = "" := by
  simp [Contract.generate, h, Option.getD]

/-- Witness for C10 at a concrete input: a freshly assembled model has no
contract name and generates `CONTRACT_NAME` as the empty string. -/
theorem c10_missing_contract_name_emits_empty_witness :
    (Contract.generate (Contract.ofEthabi exAbi)).contractNameConst = "" :=
  c10_missing_contract_name_emits_empty (Contract.ofEthabi exAbi) rfl

/-- C6: a selector is the first 4 bytes of the 256-bit hash of the canonical
signature `name(t1,t2,...)`; in particular `transfer(address,uint256)`
hashes to a selector of `a9 05 9c bb`. -/
theorem c6_selector_first_four_hash_bytes :
    (∀ f : RsFunction, f.selector = (keccak256 (strBytes f.signature)).take 4) ∧
      transferFn.signature = "transfer(address,uint256)" ∧
      transferFn.selector = [0xa9, 0x05, 0x9c, 0xbb] :=
  ⟨fun _ => rfl, by decide, by decide⟩

/-- C7: for a non-anonymous event, a log whose `topics.len() - 1` differs
from the indexed-input count is "no match" (never an error), whatever its
contents — in particular even when `topics[0]` equals the topic0. -/
theorem c7_topic_count_mismatch_no_match (e : RsEvent) (log : Log)
    (hanon : e.anonymous = false) (hcount : log.topics.length - 1 ≠ e.indexedCount) :
    e.matchAndDecode log = none := by
  unfold RsEvent.matchAndDecode
  cases htop : log.topics with
  | nil => simp [hanon, htop]
  | cons t0 rest =>
    rw [htop] at hcount
    simp only [List.length_cons, Nat.add_sub_cancel] at hcount
    by_cases h0 : t0 == e.topic0
    · simp [hanon, htop, h0, hcount]
    · simp [hanon, htop, h0]

/-- Witness for C7 at a concrete input: one topic equal to the topic0 of
`exTransferEvent`, but two indexed inputs — no match. -/
theorem c7_topic_count_mismatch_no_match_witness :
    exTransferEvent.anonymous = false ∧
      exLog7.topics.length - 1 ≠ exTransferEvent.indexedCount ∧
      exLog7.topics.getD 0 [] = exTransferEvent.topic0 ∧
      RsEvent.matchAndDecode exTransferEvent exLog7 = none :=
  ⟨rfl, by decide, rfl,
    c7_topic_count_mismatch_no_match exTransferEvent exLog7 rfl (by decide)⟩

/-- The events collection built by `Contract::from` is pairwise ordered by
final name. -/
theorem ofEthabi_events_pairwise (c : EthabiContract) :
    List.Pairwise (fun a b : AbigenEvent => a.name ≤ b.name) (Contract.ofEthabi c).events := by
  have h := List.sorted_mergeSort nameLeE_trans nameLeE_total
    ((c.events.map fun g => eventGroupDisambiguate g.2).flatten)
  exact h.imp fun hab => by simpa [nameLeE, decide_eq_true_eq] using hab

/-- The events collection built by `Contract::from` is a permutation of the
disambiguated groups in pre-sort order. -/
theorem ofEthabi_events_perm (c : EthabiContract) :
    (Contract.ofEthabi c).events.Perm (declarationOrderEvents c) :=
  List.mergeSort_perm _ _

/-- The model built from `cex3Abi` stores its events in sorted final-name
order, with `foo10` in second position. -/
theorem cex3_events_eq : (Contract.ofEthabi cex3Abi).events = cex3Sorted := by
  have hD : declarationOrderEvents cex3Abi
      = ({ name := "foo1", event := cex3Event true, extension := none } :: cex3Mid)
        ++ [{ name := "foo10", event := cex3Event false, extension := none }] := by rfl
  have hperm : (Contract.ofEthabi cex3Abi).events.Perm cex3Sorted := by
    refine (ofEthabi_events_perm cex3Abi).trans ?_
    rw [hD, List.cons_append]
    exact List.Perm.cons _ (List.perm_append_singleton _ _)
  have hsortL : List.Pairwise (fun a b : AbigenEvent => a.name < b.name) cex3Sorted := by
    simp [cex3Sorted, cex3Mid, List.pairwise_cons]
    decide
  have hnodupS : ((Contract.ofEthabi cex3Abi).events.map AbigenEvent.name).Nodup := by
    refine ((hperm.map AbigenEvent.name).nodup_iff).mpr ?_
    simp [cex3Sorted, cex3Mid, List.Nodup, List.pairwise_cons]
    decide
  have hsortS : List.Pairwise (fun a b : AbigenEvent => a.name < b.name)
      (Contract.ofEthabi cex3Abi).events := by
    have hne := List.pairwise_map.mp hnodupS
    exact ((ofEthabi_events_pairwise cex3Abi).and hne).imp fun hab =>
      lt_of_le_of_ne hab.1 hab.2
  haveI : IsAntisymm AbigenEvent (fun a b => a.name < b.name) :=
    ⟨fun a b h1 h2 => absurd (h1.trans h2) (lt_irrefl _)⟩
  exact List.eq_of_perm_of_sorted hperm hsortS (hsortL.imp fun hab => hab)

/-- C3 (counterexample): the generated matcher does not try the per-event
matchers in declaration order.  In `cex3Abi`, declaration order would yield
`foo2` as the first match of the empty log, but the generated code tries the
sorted collection and yields `foo10`. -/
theorem c3_declaration_order_counterexample :
    Contract.matchAndDecode (Contract.ofEthabi cex3Abi) cex3Log
      ≠ tryEvents (declarationOrderEvents cex3Abi) cex3Log := by
  intro h
  have h1 : Contract.matchAndDecode (Contract.ofEthabi cex3Abi) cex3Log = some ("foo10", []) := by
    show tryEvents (Contract.ofEthabi cex3Abi).events cex3Log = _
    rw [cex3_events_eq]
    rfl
  have h2 : tryEvents (declarationOrderEvents cex3Abi) cex3Log = some ("foo2", []) := by rfl
  rw [h1, h2] at h
  simp at h

/-- C3 (amended): the generated contract-level `match_and_decode` tries the
per-event matchers in the order of the model's events collection (the
variant declaration order of the generated enum, sorted by final name) and
returns the first event that matches, `None` when none matches. -/
theorem c3_first_match_in_model_order (c : Contract) (log : Log) :
    Contract.matchAndDecode c log
      = (c.events.find? fun e => (e.event.matchAndDecode log).isSome).bind
          fun e => (e.event.matchAndDecode log).map fun vs => (e.name, vs) := by
  show tryEvents c.events log = _
  induction c.events with
  | nil => rfl
  | cons e es ih =>
    rw [List.find?_cons]
    cases h : e.event.matchAndDecode log with
    | none => simpa [tryEvents, h] using ih
    | some vs => simp [tryEvents, h]

theorem beBytes_length (n v : Nat) : (beBytes n v).length = n := by
  induction n generalizing v with
  | zero => rfl
  | succ k ih => simp [beBytes, ih]

theorem beVal_append_singleton (xs : List Nat) (b : Nat) :
    beVal (xs ++ [b]) = beVal xs * 256 + b := by
  simp [beVal, List.foldl_append]

theorem beVal_beBytes (n v : Nat) : beVal (beBytes n v) = v % 256 ^ n := by
  induction n generalizing v with
  | zero => simp [beBytes, beVal, Nat.mod_one]
  | succ k ih =>
    rw [beBytes, beVal_append_singleton, ih, Nat.pow_succ, Nat.mul_comm (256 ^ k) 256,
      Nat.mod_mul]
    ring_nf

theorem two_pow_256 : (256 : Nat) ^ 32 = 2 ^ 256 := by norm_num

theorem beWord_length (v : Nat) : (beWord v).length = 32 := beBytes_length 32 v

theorem beVal_beWord (w : Nat) (h : w < 2 ^ 256) : beVal (beWord w) = w := by
  rw [beWord, beVal_beBytes, two_pow_256, Nat.mod_eq_of_lt h]

theorem sliceBytes_exact (pre mid post : List Nat) (n : Nat) (hn : mid.length = n) :
    sliceBytes (pre ++ (mid ++ post)) pre.length n = some mid := by
  subst hn
  rw [sliceBytes, if_pos]
  · rw [List.drop_left, List.take_left]
  · simp

theorem readWord_exact (pre post : List Nat) (w : Nat) (h : w < 2 ^ 256) :
    readWord (pre ++ (beWord w ++ post)) pre.length = some w := by
  rw [readWord, sliceBytes_exact pre (beWord w) post 32 (beWord_length w)]
  simp [beVal_beWord w h]

theorem headSize_static (t : ParamType) (h : t.isDynamic = false) :
    t.headSize = t.staticSize := by
  rw [ParamType.headSize, if_neg]
  simp [h]

theorem headsSize_static (ts : List ParamType) (h : anyDynamic ts = false) :
    headsSize ts = staticSizeList ts := by
  induction ts with
  | nil => rfl
  | cons t ts ih =>
    rw [anyDynamic, Bool.or_eq_false_iff] at h
    rw [headsSize, staticSizeList, headSize_static t h.1, ih h.2]

theorem headsSize_replicate (n : Nat) (t : ParamType) :
    headsSize (List.replicate n t) = n * t.headSize := by
  induction n with
  | zero => simp [headsSize]
  | succ k ih => rw [List.replicate_succ, headsSize, ih]; ring

theorem encodeTails_static (vs : List Value) (ts : List ParamType)
    (h : anyDynamic ts = false) : encodeTails vs ts = [] := by
  induction vs generalizing ts with
  | nil => cases ts <;> rfl
  | cons v vs ih =>
    cases ts with
    | nil => rfl
    | cons t ts =>
      rw [anyDynamic, Bool.or_eq_false_iff] at h
      rw [encodeTails, if_neg (by simp [h.1]), ih ts h.2, List.nil_append]

theorem haveTypes_replicate (vs : List Value) (t : ParamType)
    (h : allHaveType vs t = true) : haveTypes vs (List.replicate vs.length t) = true := by
  induction vs with
  | nil => rfl
  | cons v vs ih =>
    rw [allHaveType, Bool.and_eq_true] at h
    rw [List.length_cons, List.replicate_succ, haveTypes, Bool.and_eq_true]
    exact ⟨h.1, ih h.2⟩

theorem allWf_replicate (n : Nat) (t : ParamType) (h : t.wf = true) :
    allWf (List.replicate n t) = true := by
  induction n with
  | zero => rfl
  | succ k ih => rw [List.replicate_succ, allWf, Bool.and_eq_true]; exact ⟨h, ih⟩

theorem depthList_replicate_le (n : Nat) (t : ParamType) :
    depthList (List.replicate n t) ≤ t.depth := by
  induction n with
  | zero => simp [depthList]
  | succ k ih => rw [List.replicate_succ, depthList]; omega

theorem depth_pos (t : ParamType) : 1 ≤ t.depth := by
  cases t <;> simp [ParamType.depth]

theorem anyDynamic_replicate (n : Nat) (t : ParamType) (h : t.isDynamic = false) :
    anyDynamic (List.replicate n t) = false := by
  induction n with
  | zero => rfl
  | succ k ih => rw [List.replicate_succ, anyDynamic, Bool.or_eq_false_iff]; exact ⟨h, ih⟩

theorem value_sizeOf_pos (v : Value) : 1 ≤ sizeOf v := by
  cases v <;> simp_arith

theorem staticLen (N : Nat) :
    (∀ (v : Value) (t : ParamType), sizeOf v ≤ N → v.hasType t = true → t.wf = true →
      t.isDynamic = false → (encodeValue v t).length = t.staticSize) ∧
    (∀ (vs : List Value) (ts : List ParamType) (tp : Nat), sizeOf vs ≤ N →
      haveTypes vs ts = true → allWf ts = true →
      (encodeHeads vs ts tp).length = headsSize ts) := by
  induction N with
  | zero =>
    constructor
    · intro v t hsz
      exact absurd hsz (by have := value_sizeOf_pos v; omega)
    · intro vs ts tp hsz
      exact absurd hsz (by cases vs <;> simp_arith)
  | succ N ih =>
    constructor
    · intro v t hsz ht hw hdyn
      cases v <;> cases t <;> simp only [Value.hasType, Bool.false_eq_true] at ht
      case vBool.bool => simp [encodeValue, ParamType.staticSize, beWord_length]
      case vAddress.address bs =>
        simp only [Bool.and_eq_true, beq_iff_eq] at ht
        simp [encodeValue, ParamType.staticSize, ht.1]
      case vUint.uint => simp [encodeValue, ParamType.staticSize, beWord_length]
      case vInt.int => simp [encodeValue, ParamType.staticSize, beWord_length]
      case vFixedBytes.fixedBytes bs n =>
        simp only [Bool.and_eq_true, beq_iff_eq] at ht
        simp only [ParamType.wf, Bool.and_eq_true, decide_eq_true_eq] at hw
        simp [encodeValue, ParamType.staticSize, ht.1]
        omega
      case vBytes.bytes => exact absurd hdyn (by simp [ParamType.isDynamic])
      case vString.string => exact absurd hdyn (by simp [ParamType.isDynamic])
      case vArray.array vs elemT => exact absurd hdyn (by simp [ParamType.isDynamic])
      case vFixedArray.fixedArray vs elemT n =>
        simp only [Bool.and_eq_true, beq_iff_eq] at ht
        rw [ParamType.isDynamic] at hdyn
        rw [ParamType.wf] at hw
        have hsz2 : sizeOf vs ≤ N := by simp_arith at hsz; omega
        rw [encodeValue, encodeTails_static _ _ (anyDynamic_replicate _ _ hdyn),
          List.append_nil,
          ih.2 vs (List.replicate vs.length elemT) _ hsz2
            (haveTypes_replicate vs elemT ht.2) (allWf_replicate _ _ hw),
          headsSize_replicate, headSize_static elemT hdyn, ParamType.staticSize, ht.1]
      case vTuple.tuple vs ts =>
        rw [ParamType.isDynamic] at hdyn
        rw [ParamType.wf] at hw
        have hsz2 : sizeOf vs ≤ N := by simp_arith at hsz; omega
        rw [encodeValue, encodeTails_static _ _ hdyn, List.append_nil,
          ih.2 vs ts _ hsz2 ht hw, ParamType.staticSize, headsSize_static _ hdyn]
    · intro vs ts tp hsz hts hw
      cases vs with
      | nil =>
        cases ts with
        | nil => rfl
        | cons t ts => exact absurd hts (by simp [haveTypes])
      | cons v vs =>
        cases ts with
        | nil => exact absurd hts (by simp [haveTypes])
        | cons t ts =>
          rw [haveTypes, Bool.and_eq_true] at hts
          rw [allWf, Bool.and_eq_true] at hw
          have hszv : sizeOf v ≤ N := by simp_arith at hsz; have := value_sizeOf_pos v; omega
          have hszvs : sizeOf vs ≤ N := by
            simp_arith at hsz
            have := value_sizeOf_pos v
            omega
          rw [headsSize]
          cases hdyn : t.isDynamic with
          | true =>
            rw [encodeHeads, if_pos (by simp [hdyn])]
            simp only [List.length_append, beWord_length]
            rw [ih.2 vs ts _ hszvs hts.2 hw.2, ParamType.headSize, if_pos (by simp [hdyn])]
          | false =>
            rw [encodeHeads, if_neg (by simp [hdyn])]
            simp only [List.length_append]
            rw [ih.1 v t hszv hts.1 hw.1 hdyn, ih.2 vs ts _ hszvs hts.2 hw.2,
              ParamType.headSize, if_neg (by simp [hdyn])]

theorem encodeValue_static_length (v : Value) (t : ParamType) (ht : v.hasType t = true)
    (hw : t.wf = true) (hdyn : t.isDynamic = false) :
    (encodeValue v t).length = t.staticSize :=
  (staticLen (sizeOf v)).1 v t le_rfl ht hw hdyn

theorem encodeHeads_length (vs : List Value) (ts : List ParamType) (tp : Nat)
    (hts : haveTypes vs ts = true) (hw : allWf ts = true) :
    (encodeHeads vs ts tp).length = headsSize ts :=
  (staticLen (sizeOf vs)).2 vs ts tp le_rfl hts hw

theorem roundtrip (N : Nat) :
    (∀ (v : Value) (t : ParamType) (fuel : Nat), sizeOf v ≤ N →
      v.hasType t = true → t.wf = true → t.depth ≤ fuel →
      (t.isDynamic = true → (encodeValue v t).length < 2 ^ 256) →
      ∀ (pre post : List Nat),
        decodeValue fuel t (pre ++ (encodeValue v t ++ post)) pre.length = some v) ∧
    (∀ (vs : List Value) (ts : List ParamType) (fuel : Nat), sizeOf vs ≤ N →
      haveTypes vs ts = true → allWf ts = true → depthList ts ≤ fuel →
      ∀ (A C post : List Nat) (base tp : Nat),
        base + tp = A.length + (headsSize ts + C.length) →
        (anyDynamic ts = true → tp + (encodeTails vs ts).length < 2 ^ 256) →
        decodeCompsWith (decodeValue fuel) ts
          (A ++ (encodeHeads vs ts tp ++ (C ++ (encodeTails vs ts ++ post)))) base A.length
          = some vs) := by
  induction N with
  | zero =>
    constructor
    · intro v t fuel hsz
      exact absurd hsz (by have := value_sizeOf_pos v; omega)
    · intro vs ts fuel hsz
      exact absurd hsz (by cases vs <;> simp_arith)
  | succ N ih =>
    constructor
    · intro v t fuel hsz ht hw hfuel hbnd pre post
      cases v <;> cases t <;> simp only [Value.hasType, Bool.false_eq_true] at ht
      case vBool.bool b =>
        cases fuel with
        | zero => exact absurd hfuel (by have := depth_pos ParamType.bool; omega)
        | succ f =>
          cases b <;>
            simp only [encodeValue, Bool.false_eq_true, if_true, if_false, decodeValue] <;>
            rw [readWord_exact pre post _ (by norm_num)] <;> rfl
      case vAddress.address bs =>
        simp only [Bool.and_eq_true, beq_iff_eq] at ht
        cases fuel with
        | zero => exact absurd hfuel (by have := depth_pos ParamType.address; omega)
        | succ f =>
          simp only [encodeValue, decodeValue]
          rw [sliceBytes_exact pre (List.replicate 12 0 ++ bs) post 32 (by simp [ht.1])]
          have hdrop : (List.replicate 12 (0 : Nat) ++ bs).drop 12 = bs :=
            List.drop_left' (by simp)
          simp [hdrop]
      case vUint.uint v n =>
        simp only [decide_eq_true_eq] at ht
        simp only [ParamType.wf, Bool.and_eq_true, decide_eq_true_eq, beq_iff_eq] at hw
        cases fuel with
        | zero => exact absurd hfuel (by have := depth_pos (ParamType.uint n); omega)
        | succ f =>
          have hv : v < 2 ^ 256 :=
            lt_of_lt_of_le ht (Nat.pow_le_pow_right (by norm_num) hw.1.2)
          simp only [encodeValue, decodeValue]
          rw [readWord_exact pre post v hv]
          rfl
      case vInt.int v n =>
        simp only [Bool.and_eq_true, decide_eq_true_eq] at ht
        simp only [ParamType.wf, Bool.and_eq_true, decide_eq_true_eq] at hw
        cases fuel with
        | zero => exact absurd hfuel (by have := depth_pos (ParamType.int n); omega)
        | succ f =>
          have hpow : (2 : Int) ^ (n - 1) ≤ 2 ^ 255 :=
            pow_le_pow_right₀ (by norm_num) (by omega)
          have h1 : (0 : Int) ≤ v % 2 ^ 256 := Int.emod_nonneg v (by norm_num)
          have h2 : v % 2 ^ 256 < 2 ^ 256 := Int.emod_lt_of_pos v (by norm_num)
          have h3 : (((v % (2 : Int) ^ 256).toNat : Nat) : Int) = v % 2 ^ 256 :=
            Int.toNat_of_nonneg h1
          have hwlt : (v % (2 : Int) ^ 256).toNat < 2 ^ 256 := by omega
          simp only [encodeValue, decodeValue]
          rw [readWord_exact pre post _ hwlt]
          simp only [Option.pure_def, Option.bind_eq_bind, Option.some_bind, Option.map_some']
          refine congrArg some (congrArg Value.vInt ?_)
          split <;> omega
      case vFixedBytes.fixedBytes bs n =>
        simp only [Bool.and_eq_true, beq_iff_eq] at ht
        simp only [ParamType.wf, Bool.and_eq_true, decide_eq_true_eq] at hw
        cases fuel with
        | zero => exact absurd hfuel (by have := depth_pos (ParamType.fixedBytes n); omega)
        | succ f =>
          simp only [encodeValue, decodeValue]
          rw [sliceBytes_exact pre (bs ++ List.replicate (32 - bs.length) 0) post 32
            (by simp [ht.1]; omega)]
          rw [Option.map_some']
          have htake : (bs ++ List.replicate (32 - bs.length) 0).take n = bs := by
            rw [← ht.1, List.take_left]
          rw [htake]
      case vBytes.bytes bs =>
        simp only [Bool.and_eq_true, decide_eq_true_eq] at ht
        cases fuel with
        | zero => exact absurd hfuel (by have := depth_pos ParamType.bytes; omega)
        | succ f =>
          simp only [encodeValue, decodeValue]
          rw [show pre ++ ((beWord bs.length ++ padRight32 bs) ++ post)
              = pre ++ (beWord bs.length ++ (padRight32 bs ++ post)) from by simp]
          rw [readWord_exact pre (padRight32 bs ++ post) bs.length ht.2, Option.some_bind]
          rw [show pre ++ (beWord bs.length ++ (padRight32 bs ++ post))
              = (pre ++ beWord bs.length)
                ++ (bs ++ (List.replicate ((32 - bs.length % 32) % 32) 0 ++ post)) from by
            simp [padRight32]]
          rw [show pre.length + 32 = (pre ++ beWord bs.length).length from by
            simp [beWord_length]]
          rw [sliceBytes_exact _ bs _ bs.length rfl]
          rfl
      case vString.string bs =>
        simp only [Bool.and_eq_true, decide_eq_true_eq] at ht
        cases fuel with
        | zero => exact absurd hfuel (by have := depth_pos ParamType.string; omega)
        | succ f =>
          simp only [encodeValue, decodeValue]
          rw [show pre ++ ((beWord bs.length ++ padRight32 bs) ++ post)
              = pre ++ (beWord bs.length ++ (padRight32 bs ++ post)) from by simp]
          rw [readWord_exact pre (padRight32 bs ++ post) bs.length ht.2, Option.some_bind]
          rw [show pre ++ (beWord bs.length ++ (padRight32 bs ++ post))
              = (pre ++ beWord bs.length)
                ++ (bs ++ (List.replicate ((32 - bs.length % 32) % 32) 0 ++ post)) from by
            simp [padRight32]]
          rw [show pre.length + 32 = (pre ++ beWord bs.length).length from by
            simp [beWord_length]]
          rw [sliceBytes_exact _ bs _ bs.length rfl]
          rfl
      case vArray.array vs elemT =>
        simp only [Bool.and_eq_true, decide_eq_true_eq] at ht
        rw [ParamType.wf] at hw
        rw [ParamType.depth] at hfuel
        cases fuel with
        | zero => exact absurd hfuel (by omega)
        | succ f =>
          have hsz2 : sizeOf vs ≤ N := by simp_arith at hsz; omega
          have htsr := haveTypes_replicate vs elemT ht.1
          have hwr := allWf_replicate vs.length elemT hw
          have hHlen := encodeHeads_length vs (List.replicate vs.length elemT)
            (headsSize (List.replicate vs.length elemT)) htsr hwr
          have hlen := hbnd (by rw [ParamType.isDynamic])
          simp only [encodeValue, List.length_append] at hlen
          have hbound : anyDynamic (List.replicate vs.length elemT) = true →
              headsSize (List.replicate vs.length elemT)
                + (encodeTails vs (List.replicate vs.length elemT)).length < 2 ^ 256 := by
            intro _
            have hbw := beWord_length vs.length
            omega
          have hcomp := ih.2 vs (List.replicate vs.length elemT) f hsz2 htsr hwr
            (by have := depthList_replicate_le vs.length elemT; omega)
            (pre ++ beWord vs.length) [] post (pre ++ beWord vs.length).length
            (headsSize (List.replicate vs.length elemT))
            (by simp) hbound
          simp only [encodeValue, decodeValue]
          rw [show pre ++ ((beWord vs.length
                ++ (encodeHeads vs (List.replicate vs.length elemT)
                      (headsSize (List.replicate vs.length elemT))
                    ++ encodeTails vs (List.replicate vs.length elemT))) ++ post)
              = pre ++ (beWord vs.length
                ++ ((encodeHeads vs (List.replicate vs.length elemT)
                      (headsSize (List.replicate vs.length elemT))
                    ++ encodeTails vs (List.replicate vs.length elemT)) ++ post)) from by simp]
          rw [readWord_exact pre _ vs.length ht.2, Option.some_bind]
          rw [show pre ++ (beWord vs.length
                ++ ((encodeHeads vs (List.replicate vs.length elemT)
                      (headsSize (List.replicate vs.length elemT))
                    ++ encodeTails vs (List.replicate vs.length elemT)) ++ post))
              = (pre ++ beWord vs.length)
                ++ (encodeHeads vs (List.replicate vs.length elemT)
                      (headsSize (List.replicate vs.length elemT))
                  ++ ([] ++ (encodeTails vs (List.replicate vs.length elemT) ++ post)))
            from by simp]
          rw [show pre.length + 32 = (pre ++ beWord vs.length).length from by
            simp [beWord_length]]
          rw [hcomp]
          rfl
      case vFixedArray.fixedArray vs elemT n =>
        simp only [Bool.and_eq_true, beq_iff_eq] at ht
        rw [ParamType.wf] at hw
        rw [ParamType.depth] at hfuel
        rw [ParamType.isDynamic] at hbnd
        cases fuel with
        | zero => exact absurd hfuel (by omega)
        | succ f =>
          have hsz2 : sizeOf vs ≤ N := by simp_arith at hsz; omega
          have htsr := haveTypes_replicate vs elemT ht.2
          have hwr := allWf_replicate vs.length elemT hw
          have hHlen := encodeHeads_length vs (List.replicate vs.length elemT)
            (headsSize (List.replicate vs.length elemT)) htsr hwr
          have hbound : anyDynamic (List.replicate vs.length elemT) = true →
              headsSize (List.replicate vs.length elemT)
                + (encodeTails vs (List.replicate vs.length elemT)).length < 2 ^ 256 := by
            intro hdy
            have hdyE : elemT.isDynamic = true := by
              by_contra hcon
              rw [anyDynamic_replicate vs.length elemT
                (Bool.not_eq_true elemT.isDynamic ▸ hcon)] at hdy
              exact Bool.noConfusion hdy
            have h := hbnd hdyE
            simp only [encodeValue, List.length_append] at h
            omega
          have hcomp := ih.2 vs (List.replicate vs.length elemT) f hsz2 htsr hwr
            (by have := depthList_replicate_le vs.length elemT; omega)
            pre [] post pre.length (headsSize (List.replicate vs.length elemT))
            (by simp) hbound
          simp only [encodeValue, decodeValue]
          rw [← ht.1]
          rw [show pre ++ ((encodeHeads vs (List.replicate vs.length elemT)
                  (headsSize (List.replicate vs.length elemT))
                ++ encodeTails vs (List.replicate vs.length elemT)) ++ post)
              = pre ++ (encodeHeads vs (List.replicate vs.length elemT)
                  (headsSize (List.replicate vs.length elemT))
                ++ ([] ++ (encodeTails vs (List.replicate vs.length elemT) ++ post)))
            from by simp]
          rw [hcomp]
          rfl
      case vTuple.tuple vs ts =>
        rw [ParamType.wf] at hw
        rw [ParamType.depth] at hfuel
        rw [ParamType.isDynamic] at hbnd
        cases fuel with
        | zero => exact absurd hfuel (by omega)
        | succ f =>
          have hsz2 : sizeOf vs ≤ N := by simp_arith at hsz; omega
          have hHlen := encodeHeads_length vs ts (headsSize ts) ht hw
          have hbound : anyDynamic ts = true →
              headsSize ts + (encodeTails vs ts).length < 2 ^ 256 := by
            intro hdy
            have h := hbnd hdy
            simp only [encodeValue, List.length_append] at h
            omega
          have hcomp := ih.2 vs ts f hsz2 ht hw (by omega) pre [] post pre.length
            (headsSize ts) (by simp) hbound
          simp only [encodeValue, decodeValue]
          rw [show pre ++ ((encodeHeads vs ts (headsSize ts) ++ encodeTails vs ts) ++ post)
              = pre ++ (encodeHeads vs ts (headsSize ts)
                ++ ([] ++ (encodeTails vs ts ++ post))) from by simp]
          rw [hcomp]
          rfl
    · intro vs ts fuel hsz hts hw hfuel A C post base tp hinv hb
      cases vs with
      | nil =>
        cases ts with
        | nil => rfl
        | cons t ts => exact absurd hts (by simp [haveTypes])
      | cons v vs =>
        cases ts with
        | nil => exact absurd hts (by simp [haveTypes])
        | cons t ts =>
          rw [haveTypes, Bool.and_eq_true] at hts
          rw [allWf, Bool.and_eq_true] at hw
          rw [depthList] at hfuel
          have hfuel1 : t.depth ≤ fuel := le_trans (le_max_left _ _) hfuel
          have hfuel2 : depthList ts ≤ fuel := le_trans (le_max_right _ _) hfuel
          have hszv : sizeOf v ≤ N := by
            simp_arith at hsz
            have := value_sizeOf_pos v
            omega
          have hszvs : sizeOf vs ≤ N := by
            simp_arith at hsz
            have := value_sizeOf_pos v
            omega
          rw [headsSize] at hinv
          cases hdPn : t.isDynamic with
          | false =>
            have hH : encodeHeads (v :: vs) (t :: ts) tp
                = encodeValue v t ++ encodeHeads vs ts tp := by
              rw [encodeHeads, if_neg (by simp [hdPn])]
            have hT : encodeTails (v :: vs) (t :: ts) = encodeTails vs ts := by
              rw [encodeTails, if_neg (by simp [hdPn]), List.nil_append]
            rw [hH, hT]
            have hhs := headSize_static t hdPn
            have hlenE := encodeValue_static_length v t hts.1 hw.1 hdPn
            rw [decodeCompsWith, if_neg (by simp [hdPn])]
            have hv : decodeValue fuel t
                (A ++ ((encodeValue v t ++ encodeHeads vs ts tp)
                  ++ (C ++ (encodeTails vs ts ++ post)))) A.length = some v := by
              rw [show A ++ ((encodeValue v t ++ encodeHeads vs ts tp)
                    ++ (C ++ (encodeTails vs ts ++ post)))
                  = A ++ (encodeValue v t ++ (encodeHeads vs ts tp
                    ++ (C ++ (encodeTails vs ts ++ post)))) from by simp]
              exact ih.1 v t fuel hszv hts.1 hw.1 hfuel1
                (fun hd => absurd hd (by simp [hdPn])) A _
            rw [hv, Option.some_bind]
            have hrest : decodeCompsWith (decodeValue fuel) ts
                (A ++ ((encodeValue v t ++ encodeHeads vs ts tp)
                  ++ (C ++ (encodeTails vs ts ++ post)))) base (A.length + t.staticSize)
                = some vs := by
              have h2 := ih.2 vs ts fuel hszvs hts.2 hw.2 hfuel2
                (A ++ encodeValue v t) C post base tp
                (by simp only [List.length_append, hlenE]; omega)
                (by
                  intro hdy
                  have hball := hb (by rw [anyDynamic, hdy]; simp)
                  rw [hT] at hball
                  exact hball)
              rw [show (A ++ encodeValue v t) ++ (encodeHeads vs ts tp
                    ++ (C ++ (encodeTails vs ts ++ post)))
                  = A ++ ((encodeValue v t ++ encodeHeads vs ts tp)
                    ++ (C ++ (encodeTails vs ts ++ post))) from by simp] at h2
              rw [show (A ++ encodeValue v t).length = A.length + t.staticSize from by
                simp [hlenE]] at h2
              exact h2
            rw [hrest]
            rfl
          | true =>
            have hH : encodeHeads (v :: vs) (t :: ts) tp
                = beWord tp ++ encodeHeads vs ts (tp + (encodeValue v t).length) := by
              rw [encodeHeads, if_pos hdPn]
            have hT : encodeTails (v :: vs) (t :: ts)
                = encodeValue v t ++ encodeTails vs ts := by
              rw [encodeTails, if_pos hdPn]
            rw [hH, hT]
            have hhs : t.headSize = 32 := by rw [ParamType.headSize, if_pos hdPn]
            have hble : tp + ((encodeValue v t).length + (encodeTails vs ts).length)
                < 2 ^ 256 := by
              have h := hb (by rw [anyDynamic, hdPn]; rfl)
              rw [hT] at h
              simpa using h
            have hHlen := encodeHeads_length vs ts (tp + (encodeValue v t).length) hts.2 hw.2
            rw [decodeCompsWith, if_pos hdPn]
            have hr : readWord (A ++ ((beWord tp
                  ++ encodeHeads vs ts (tp + (encodeValue v t).length))
                ++ (C ++ ((encodeValue v t ++ encodeTails vs ts) ++ post)))) A.length
                = some tp := by
              rw [show A ++ ((beWord tp
                      ++ encodeHeads vs ts (tp + (encodeValue v t).length))
                    ++ (C ++ ((encodeValue v t ++ encodeTails vs ts) ++ post)))
                  = A ++ (beWord tp
                    ++ (encodeHeads vs ts (tp + (encodeValue v t).length)
                      ++ (C ++ ((encodeValue v t ++ encodeTails vs ts) ++ post))))
                from by simp]
              exact readWord_exact _ _ _ (by omega)
            rw [hr, Option.some_bind]
            have hv : decodeValue fuel t (A ++ ((beWord tp
                  ++ encodeHeads vs ts (tp + (encodeValue v t).length))
                ++ (C ++ ((encodeValue v t ++ encodeTails vs ts) ++ post)))) (base + tp)
                = some v := by
              rw [show A ++ ((beWord tp
                      ++ encodeHeads vs ts (tp + (encodeValue v t).length))
                    ++ (C ++ ((encodeValue v t ++ encodeTails vs ts) ++ post)))
                  = (A ++ (beWord tp
                      ++ (encodeHeads vs ts (tp + (encodeValue v t).length) ++ C)))
                    ++ (encodeValue v t ++ (encodeTails vs ts ++ post)) from by simp]
              rw [show base + tp = (A ++ (beWord tp
                  ++ (encodeHeads vs ts (tp + (encodeValue v t).length) ++ C))).length from by
                simp only [List.length_append, beWord_length, hHlen]
                omega]
              exact ih.1 v t fuel hszv hts.1 hw.1 hfuel1 (fun _ => by omega) _ _
            rw [hv, Option.some_bind]
            have hrest : decodeCompsWith (decodeValue fuel) ts (A ++ ((beWord tp
                  ++ encodeHeads vs ts (tp + (encodeValue v t).length))
                ++ (C ++ ((encodeValue v t ++ encodeTails vs ts) ++ post)))) base
                (A.length + 32) = some vs := by
              have h2 := ih.2 vs ts fuel hszvs hts.2 hw.2 hfuel2 (A ++ beWord tp)
                (C ++ encodeValue v t) post base (tp + (encodeValue v t).length)
                (by simp only [List.length_append, beWord_length]; omega)
                (fun _ => by omega)
              rw [show (A ++ beWord tp)
                    ++ (encodeHeads vs ts (tp + (encodeValue v t).length)
                      ++ ((C ++ encodeValue v t) ++ (encodeTails vs ts ++ post)))
                  = A ++ ((beWord tp
                      ++ encodeHeads vs ts (tp + (encodeValue v t).length))
                    ++ (C ++ ((encodeValue v t ++ encodeTails vs ts) ++ post)))
                from by simp] at h2
              rw [show (A ++ beWord tp).length = A.length + 32 from by
                simp [beWord_length]] at h2
              exact h2
            rw [hrest]
            rfl

/-- C8: for every function and every input tuple whose components satisfy the
declared input types (with valid ABI widths, all within the 256-bit length
and offset range of the encoding), decoding the ABI encoding of the tuple
yields the tuple again. -/
theorem c8_decode_encode_roundtrip (f : RsFunction) (vs : List Value)
    (hts : haveTypes vs (f.inputs.map Param.kind) = true)
    (hw : allWf (f.inputs.map Param.kind) = true)
    (hlen : (abiEncode (f.inputs.map Param.kind) vs).length < 2 ^ 256) :
    abiDecode (f.inputs.map Param.kind) (abiEncode (f.inputs.map Param.kind) vs)
      = some vs := by
  have hH := encodeHeads_length vs (f.inputs.map Param.kind)
    (headsSize (f.inputs.map Param.kind)) hts hw
  simp only [abiEncode, encodeTop, List.length_append] at hlen
  have h := (roundtrip (sizeOf vs)).2 vs (f.inputs.map Param.kind)
    (depthList (f.inputs.map Param.kind)) le_rfl hts hw le_rfl [] [] [] 0
    (headsSize (f.inputs.map Param.kind)) (by simp) (fun _ => by omega)
  simp only [List.nil_append, List.append_nil, List.length_nil] at h
  simp only [abiDecode, abiEncode, encodeTop]
  exact h

/-- Witness for C8 at a concrete input: the declared inputs of
`transfer(address,uint256)` and a concrete value tuple. -/
theorem c8_decode_encode_roundtrip_witness :
    haveTypes [Value.vAddress (List.replicate 20 7), Value.vUint 5]
        (transferFn.inputs.map Param.kind) = true ∧
      allWf (transferFn.inputs.map Param.kind) = true ∧
      (abiEncode (transferFn.inputs.map Param.kind)
        [Value.vAddress (List.replicate 20 7), Value.vUint 5]).length < 2 ^ 256 ∧
      abiDecode (transferFn.inputs.map Param.kind)
          (abiEncode (transferFn.inputs.map Param.kind)
            [Value.vAddress (List.replicate 20 7), Value.vUint 5])
        = some [Value.vAddress (List.replicate 20 7), Value.vUint 5] :=
  ⟨by decide, by decide, by decide,
    c8_decode_encode_roundtrip transferFn
      [Value.vAddress (List.replicate 20 7), Value.vUint 5]
      (by decide) (by decide) (by decide)⟩
